import Mathlib

/-!
Verification of the server core of web-readdy-ai (src/src/index.ts and
src/unnamed/part_000, the variant of the same entry point that also accepts
an `existingCode` field).

Strings are modeled as `List Char`.  The two regular expressions used by
`extractCode` are embedded as explicit scanning functions that follow
JavaScript `String.match` semantics for those two concrete patterns
(leftmost match, lazy `+?` quantifier, `(?:html)?` greedy option, `/i`
case-insensitive flag folded over ASCII letters).  The HTTP layer is
modeled by an abstract transport producing an `HttpResp`; the parsed JSON
body is a `JsonVal`, and JavaScript property/index access with its
optional-chaining (`?.`) and TypeError behavior is modeled explicitly.
-/

/-! ## JavaScript string trimming (String.prototype.trim) -/

/-- Code points treated as whitespace by JavaScript `trim`:
TAB, LF, VT, FF, CR, SP, NBSP, OGHAM SP, U+2000..U+200A, LS, PS,
NNBSP, MMSP, IDEOGRAPHIC SP, BOM. -/
def jsWsCodes : List Nat :=
  [9, 10, 11, 12, 13, 32, 160, 5760,
   8192, 8193, 8194, 8195, 8196, 8197, 8198, 8199, 8200, 8201, 8202,
   8232, 8233, 8239, 8287, 12288, 65279]

def isJsWs (c : Char) : Bool := jsWsCodes.contains c.toNat

/-- JavaScript `s.trim()`: strip leading and trailing whitespace. -/
def jsTrim (s : List Char) : List Char :=
  ((s.dropWhile isJsWs).reverse.dropWhile isJsWs).reverse

/-! ## Literal and case-insensitive matching primitives -/

/-- Literal prefix test (used to embed the literal parts of the regexes). -/
def startsWithLit : List Char → List Char → Bool
  | [], _ => true
  | _ :: _, [] => false
  | p :: ps, c :: cs => p == c && startsWithLit ps cs

/-- One pattern character of a `/i` regex against one text character.
The pattern character `p` is stored lowercase; `c` matches if it is equal
to `p` or is the ASCII uppercase letter whose lowercase form is `p`. -/
def charMatches (p c : Char) : Bool :=
  p == c ||
    (decide (65 ≤ c.toNat) && decide (c.toNat ≤ 90) &&
      decide (c.toNat + 32 = p.toNat))

/-- Case-insensitive literal-pattern prefix test. -/
def ciMatchList : List Char → List Char → Bool
  | [], _ => true
  | _ :: _, [] => false
  | p :: ps, c :: cs => charMatches p c && ciMatchList ps cs

/-- `u` is an exact (full-length) case-insensitive match of pattern `pat`. -/
def CiExact (pat u : List Char) : Prop :=
  u.length = pat.length ∧ ciMatchList pat u = true

/-! ## The code-block regex  /```(?:html)?\n([\s\S]+?)\n```/  -/

/-- The closing delimiter `\n`³backticks of the fenced-block regex. -/
def fenceClose : List Char := ['\n', '`', '`', '`']

/-- The opening delimiter: three backticks, the optional tag, a newline. -/
def fenceOpener (tag : List Char) : List Char :=
  ['`', '`', '`'] ++ tag ++ ['\n']

def htmlTag : List Char := ['h', 't', 'm', 'l']

def fenceOpenHtml : List Char := fenceOpener htmlTag

def fenceOpenPlain : List Char := fenceOpener []

/-- Lazy search for the capture group `([\s\S]+?)` followed by `\n`³backticks:
returns the shortest nonempty interior such that the input is
interior ++ fenceClose ++ rest. -/
def findInterior : List Char → Option (List Char)
  | [] => none
  | c :: rest =>
    if startsWithLit fenceClose rest then some [c]
    else (findInterior rest).map (fun i => c :: i)

/-- Leftmost-match scan of the fenced-block regex; returns the capture
group (the interior) of the first match, if any.  At each position the
greedy `(?:html)?` option is tried first; if the opener matches but no
closing delimiter follows, the engine moves one position right, exactly
as the JavaScript engine does. -/
def fenceScan : List Char → Option (List Char)
  | [] => none
  | c :: rest =>
    if startsWithLit fenceOpenHtml (c :: rest) then
      match findInterior ((c :: rest).drop 8) with
      | some i => some i
      | none => fenceScan rest
    else if startsWithLit fenceOpenPlain (c :: rest) then
      match findInterior ((c :: rest).drop 4) with
      | some i => some i
      | none => fenceScan rest
    else fenceScan rest

/-! ## The document regex  /<!DOCTYPE html[\s\S]+?<\/html>/i  -/

/-- The pattern `<!DOCTYPE html`, stored lowercase for `/i` matching. -/
def doctypePat : List Char :=
  ['<', '!', 'd', 'o', 'c', 't', 'y', 'p', 'e', ' ', 'h', 't', 'm', 'l']

/-- The pattern `</html>`, stored lowercase for `/i` matching. -/
def closeHtmlPat : List Char := ['<', '/', 'h', 't', 'm', 'l', '>']

/-- Lazy search for `[\s\S]+?` followed by `</html>` (case-insensitive):
returns the original characters of the shortest nonempty body together
with the seven characters that matched the closing tag. -/
def findHtmlClose : List Char → Option (List Char)
  | [] => none
  | c :: rest =>
    if ciMatchList closeHtmlPat rest then some (c :: rest.take 7)
    else (findHtmlClose rest).map (fun l => c :: l)

/-- Leftmost-match scan of the document regex; returns the full matched
span (original characters), if any. -/
def htmlScan : List Char → Option (List Char)
  | [] => none
  | c :: rest =>
    if ciMatchList doctypePat (c :: rest) then
      match findHtmlClose ((c :: rest).drop 14) with
      | some l => some ((c :: rest).take 14 ++ l)
      | none => htmlScan rest
    else htmlScan rest

/-- The function extractCode (src/src/index.ts lines 227-239, identical in
src/unnamed/part_000 lines 252-264): first the fenced-block regex with the
capture group trimmed, then the doctype regex with the whole match
returned untrimmed, then the trimmed raw text. -/
def extractCode (text : List Char) : List Char :=
  match fenceScan text with
  | some interior => jsTrim interior
  | none =>
    match htmlScan text with
    | some span => span
    | none => jsTrim text

/-! ## Declarative descriptions of the two regexes (for the theorems) -/

/-- A full match of the fenced-block regex starts at position `j`. -/
def FenceMatchAt (text : List Char) (j : Nat) : Prop :=
  ∃ tag interior rest,
    (tag = [] ∨ tag = htmlTag) ∧ interior ≠ [] ∧
    text.drop j = fenceOpener tag ++ interior ++ fenceClose ++ rest

/-- A full match of the document regex starts at position `j`. -/
def HtmlMatchAt (text : List Char) (j : Nat) : Prop :=
  ∃ d body e rest,
    CiExact doctypePat d ∧ CiExact closeHtmlPat e ∧ body ≠ [] ∧
    text.drop j = d ++ body ++ e ++ rest

/-! ## JSON values and JavaScript member access -/

/-- A parsed JSON value (the result of `response.json()`). -/
inductive JsonVal where
  | null
  | bool (b : Bool)
  | num (n : Int)
  | str (s : List Char)
  | arr (elts : List JsonVal)
  | obj (fields : List (List Char × JsonVal))

/-- A JavaScript expression value: `none` is `undefined`. -/
abbrev JSVal := Option JsonVal

def jlookup : List (List Char × JsonVal) → List Char → Option JsonVal
  | [], _ => none
  | (k, v) :: rest, key => if k = key then some v else jlookup rest key

def isNullish : JSVal → Bool
  | none => true
  | some JsonVal.null => true
  | _ => false

/-- Property access `v.k`.  Throws a TypeError when `v` is nullish; gives
`undefined` on a missing field or a non-object. -/
def propAccess : JSVal → List Char → Except Unit JSVal
  | none, _ => Except.error ()
  | some JsonVal.null, _ => Except.error ()
  | some (JsonVal.obj fs), k => Except.ok (jlookup fs k)
  | some _, _ => Except.ok none

/-- Index access `v[i]`.  Throws a TypeError when `v` is nullish; arrays
are the only indexable values modeled. -/
def idxAccess : JSVal → Nat → Except Unit JSVal
  | none, _ => Except.error ()
  | some JsonVal.null, _ => Except.error ()
  | some (JsonVal.arr xs), i => Except.ok (xs.get? i)
  | some _, _ => Except.ok none

def choicesKey : List Char := "choices".data
def messageKey : List Char := "message".data
def contentKey : List Char := "content".data
def candidatesKey : List Char := "candidates".data
def partsKey : List Char := "parts".data
def textKey : List Char := "text".data

/-- The expression `data.choices[0]?.message?.content` with JavaScript
optional-chaining semantics. -/
def openAIContent (data : JsonVal) : Except Unit JSVal :=
  match propAccess (some data) choicesKey with
  | Except.error e => Except.error e
  | Except.ok choices =>
    match idxAccess choices 0 with
    | Except.error e => Except.error e
    | Except.ok c0 =>
      if isNullish c0 then Except.ok none
      else
        match propAccess c0 messageKey with
        | Except.error e => Except.error e
        | Except.ok msg =>
          if isNullish msg then Except.ok none
          else propAccess msg contentKey

/-- The expression `data.candidates[0]?.content?.parts[0]?.text`.  Note the
index access on `parts` is not guarded by `?.`, so a nullish `parts`
throws, exactly as in the source. -/
def geminiContent (data : JsonVal) : Except Unit JSVal :=
  match propAccess (some data) candidatesKey with
  | Except.error e => Except.error e
  | Except.ok cands =>
    match idxAccess cands 0 with
    | Except.error e => Except.error e
    | Except.ok c0 =>
      if isNullish c0 then Except.ok none
      else
        match propAccess c0 contentKey with
        | Except.error e => Except.error e
        | Except.ok content =>
          if isNullish content then Except.ok none
          else
            match propAccess content partsKey with
            | Except.error e => Except.error e
            | Except.ok parts =>
              match idxAccess parts 0 with
              | Except.error e => Except.error e
              | Except.ok p0 =>
                if isNullish p0 then Except.ok none
                else propAccess p0 textKey

/-- The expression `data.content[0]?.text`. -/
def claudeContent (data : JsonVal) : Except Unit JSVal :=
  match propAccess (some data) contentKey with
  | Except.error e => Except.error e
  | Except.ok content =>
    match idxAccess content 0 with
    | Except.error e => Except.error e
    | Except.ok c0 =>
      if isNullish c0 then Except.ok none
      else propAccess c0 textKey

/-- The coercion `code = <value> || ''` followed by use of `code` as a
string by `extractCode` (`code.match`): every JavaScript falsy value
yields the empty string; a truthy non-string would make `.match` throw. -/
def coerceCode : JSVal → Except Unit (List Char)
  | none => Except.ok []
  | some JsonVal.null => Except.ok []
  | some (JsonVal.bool false) => Except.ok []
  | some (JsonVal.bool true) => Except.error ()
  | some (JsonVal.num n) => if n = 0 then Except.ok [] else Except.error ()
  | some (JsonVal.str s) => Except.ok s
  | some (JsonVal.arr _) => Except.error ()
  | some (JsonVal.obj _) => Except.error ()

/-! ## HTTP responses, errors, and the three provider adapters -/

/-- The observable outcome of one `fetch`: the `ok` flag, the body read as
text (used on the error path) and the body parsed as JSON (used on the
success path). -/
structure HttpResp where
  ok : Bool
  bodyText : List Char
  bodyJson : JsonVal

/-- A failure of the generation pipeline: either a thrown
`new Error(msg)`, or a runtime TypeError from member access. -/
inductive GenError where
  | thrown (msg : List Char)
  | typeErr

def openAIErrorLabel : List Char := "OpenAI API Error: ".data
def geminiErrorLabel : List Char := "Gemini API Error: ".data
def claudeErrorLabel : List Char := "Claude API Error: ".data

/-- Adapter callOpenAI (src/src/index.ts lines 123-156), starting from the
transport outcome of its single fetch. -/
def callOpenAI (resp : HttpResp) : Except GenError (List Char) :=
  if !resp.ok then
    Except.error (GenError.thrown (openAIErrorLabel ++ resp.bodyText))
  else
    match openAIContent resp.bodyJson with
    | Except.error _ => Except.error GenError.typeErr
    | Except.ok v =>
      match coerceCode v with
      | Except.error _ => Except.error GenError.typeErr
      | Except.ok code => Except.ok (extractCode code)

/-- Adapter callGemini (src/src/index.ts lines 161-187). -/
def callGemini (resp : HttpResp) : Except GenError (List Char) :=
  if !resp.ok then
    Except.error (GenError.thrown (geminiErrorLabel ++ resp.bodyText))
  else
    match geminiContent resp.bodyJson with
    | Except.error _ => Except.error GenError.typeErr
    | Except.ok v =>
      match coerceCode v with
      | Except.error _ => Except.error GenError.typeErr
      | Except.ok code => Except.ok (extractCode code)

/-- Adapter callClaude (src/src/index.ts lines 192-222). -/
def callClaude (resp : HttpResp) : Except GenError (List Char) :=
  if !resp.ok then
    Except.error (GenError.thrown (claudeErrorLabel ++ resp.bodyText))
  else
    match claudeContent resp.bodyJson with
    | Except.error _ => Except.error GenError.typeErr
    | Except.ok v =>
      match coerceCode v with
      | Except.error _ => Except.error GenError.typeErr
      | Except.ok code => Except.ok (extractCode code)

/-! ## Prompt composition and dispatch (generateWebsite) -/

/-- One element of the `images` array of the request. -/
structure ImageInfo where
  name : List Char
  type : List Char
  data : List Char

inductive Provider where
  | openai
  | gemini
  | claude

def creationHead : String :=
  "ユーザーが作りたいWebサイトについて説明しています。\n以下の要件を満たす、完全で実用的なHTMLファイル（1つのファイルにCSSとJavaScriptを含む）を作成してください。\n\n【要件】\n- HTML5、CSS、JavaScriptを1つのファイルにまとめる\n- Tailwind CSSをCDNから読み込む（<script src=\"https://cdn.tailwindcss.com\"></script>）\n- レスポンシブデザインに対応する\n- モダンなデザインにする（丸みを帯びた形状、柔らかい色使い）\n- 色はパステルカラー（水色系）を基調にする\n\n【ユーザーの要望】\n"

def imagesNoteA : String := "\n【参考画像】\nユーザーが"

def imagesNoteB : String :=
  "枚の画像をアップロードしました。これらの画像の雰囲気をデザインに反映させてください。\n画像自体はHTMLに埋め込まず、デザインの参考として使用してください。\n"

def outputTail : String :=
  "\n\n【出力形式】\nHTMLのコードのみを出力してください。説明文やコードブロック（```）は不要です。"

def revisionHead : String :=
  "あなたは既存のWebサイトを改善するWeb開発者です。\n以下の既存のHTMLコードを基に、ユーザーの要望に従って修正・改善してください。\n\n【既存のコード】\n"

def revisionMid : String := "\n\n【ユーザーの修正要望】\n"

def revisionTail : String :=
  "\n\n【重要なルール】\n- 既存のコードを基盤として、要望された部分のみを変更してください\n- 要望されていない部分はそのまま維持してください\n- 完全なHTMLファイルを出力してください\n- Tailwind CSSを引き続き使用してください\n\n【出力形式】\nHTMLのコードのみを出力してください。説明文やコードブロック（```）は不要です。"

/-- Creation-mode instruction (src/unnamed/part_000 lines 102-122; the
same text as src/src/index.ts lines 78-98).  An absent `images` argument
is modeled as the empty list, so the JavaScript condition
`images && images.length > 0` becomes `0 < images.length`. -/
def creationPrompt (prompt : List Char) (images : List ImageInfo) : List Char :=
  creationHead.data ++ prompt ++ "\n\n".data ++
    (if 0 < images.length then
       imagesNoteA.data ++ (toString images.length).data ++ imagesNoteB.data
     else []) ++
    outputTail.data

/-- Revision-mode instruction (src/unnamed/part_000 lines 83-99). -/
def revisionPrompt (existingCode prompt : List Char) : List Char :=
  revisionHead.data ++ existingCode ++ revisionMid.data ++ prompt ++
    revisionTail.data

/-- JavaScript truthiness of the optional string `existingCode`:
`undefined` and the empty string are falsy. -/
def truthyOptStr : Option (List Char) → Bool
  | none => false
  | some s => !s.isEmpty

/-- The `fullPrompt` computation of generateWebsite
(src/unnamed/part_000 lines 79-123): revision mode iff `existingCode`
is truthy. -/
def buildFullPrompt (prompt : List Char) (images : List ImageInfo)
    (existingCode : Option (List Char)) : List Char :=
  if truthyOptStr existingCode then
    revisionPrompt (existingCode.getD []) prompt
  else
    creationPrompt prompt images

def openaiId : List Char := "openai".data
def geminiId : List Char := "gemini".data
def claudeId : List Char := "claude".data

def unsupportedProviderMsg : List Char := "未対応のAIプロバイダーです".data

/-- generateWebsite (src/unnamed/part_000 lines 71-143; src/src/index.ts
lines 71-118 is the same function without the `existingCode` parameter).
The network is abstracted by `transport`, which yields the transport
outcome of the one fetch a provider adapter would issue for the given
credential and instruction.  The second component of the result counts
how many fetches were issued. -/
def generateWebsite (prompt aiProvider apiKey : List Char)
    (images : List ImageInfo) (existingCode : Option (List Char))
    (transport : Provider → List Char → List Char → HttpResp) :
    Except GenError (List Char) × Nat :=
  let fullPrompt := buildFullPrompt prompt images existingCode
  if aiProvider = openaiId then
    (callOpenAI (transport Provider.openai apiKey fullPrompt), 1)
  else if aiProvider = geminiId then
    (callGemini (transport Provider.gemini apiKey fullPrompt), 1)
  else if aiProvider = claudeId then
    (callClaude (transport Provider.claude apiKey fullPrompt), 1)
  else
    (Except.error (GenError.thrown unsupportedProviderMsg), 0)

/-! ## Claims about prompt composition and dispatch -/

/-- C7: every creation-mode request (falsy `existingCode`) embeds the
caller's user prompt verbatim and unmodified as a substring of the
composed instruction. -/
theorem creation_embeds_prompt_verbatim (prompt : List Char)
    (images : List ImageInfo) (existingCode : Option (List Char))
    (h : truthyOptStr existingCode = false) :
    prompt <:+: buildFullPrompt prompt images existingCode := by
  refine ⟨creationHead.data,
    "\n\n".data ++
      ((if 0 < images.length then
          imagesNoteA.data ++ (toString images.length).data ++ imagesNoteB.data
        else []) ++ outputTail.data), ?_⟩
  simp [buildFullPrompt, h, creationPrompt, List.append_assoc]

theorem creation_embeds_prompt_verbatim_witness :
    "Create a landing page for a bakery".data <:+:
      buildFullPrompt "Create a landing page for a bakery".data [] none :=
  creation_embeds_prompt_verbatim _ _ _ rfl

/-- C8: every revision-mode request (nonempty `existingCode`) embeds both
the literal prior document and the literal revision request as substrings
of the composed instruction. -/
theorem revision_embeds_prior_and_request (prompt existingCode : List Char)
    (images : List ImageInfo) (h : existingCode ≠ []) :
    existingCode <:+: buildFullPrompt prompt images (some existingCode) ∧
    prompt <:+: buildFullPrompt prompt images (some existingCode) := by
  have ht : truthyOptStr (some existingCode) = true := by
    cases existingCode with
    | nil => exact absurd rfl h
    | cons a l => rfl
  constructor
  · refine ⟨revisionHead.data, revisionMid.data ++ (prompt ++ revisionTail.data), ?_⟩
    simp [buildFullPrompt, ht, revisionPrompt, List.append_assoc]
  · refine ⟨revisionHead.data ++ existingCode ++ revisionMid.data, revisionTail.data, ?_⟩
    simp [buildFullPrompt, ht, revisionPrompt, List.append_assoc]

theorem revision_embeds_prior_and_request_witness :
    "<html>OLD</html>".data <:+:
      buildFullPrompt "make the button blue".data []
        (some "<html>OLD</html>".data) ∧
    "make the button blue".data <:+:
      buildFullPrompt "make the button blue".data []
        (some "<html>OLD</html>".data) :=
  revision_embeds_prior_and_request _ _ _ (by decide)

/-- C10: mode selection is by truthiness, not presence: a present but
empty `existingCode` is handled in creation mode, and the
prior-document-embedding branch is taken exactly for nonempty
`existingCode`. -/
theorem empty_existing_code_is_creation_mode (prompt : List Char)
    (images : List ImageInfo) :
    buildFullPrompt prompt images (some []) = creationPrompt prompt images ∧
    ∀ existingCode : List Char, existingCode ≠ [] →
      buildFullPrompt prompt images (some existingCode) =
        revisionPrompt existingCode prompt := by
  constructor
  · simp [buildFullPrompt, truthyOptStr]
  · intro ec h
    have ht : truthyOptStr (some ec) = true := by
      cases ec with
      | nil => exact absurd rfl h
      | cons a l => rfl
    simp [buildFullPrompt, ht]

theorem empty_existing_code_is_creation_mode_witness :
    buildFullPrompt ['p'] [] (some []) = creationPrompt ['p'] [] ∧
    buildFullPrompt ['p'] [] (some ['x']) = revisionPrompt ['x'] ['p'] :=
  ⟨(empty_existing_code_is_creation_mode ['p'] []).1,
   (empty_existing_code_is_creation_mode ['p'] []).2 ['x'] (by decide)⟩

/-- C5: an unrecognized provider identifier makes generateWebsite fail
with the unsupported-provider error, and no fetch is issued (the fetch
counter stays at zero, for every transport). -/
theorem unsupported_provider_no_fetch (prompt aiProvider apiKey : List Char)
    (images : List ImageInfo) (existingCode : Option (List Char))
    (transport : Provider → List Char → List Char → HttpResp)
    (h1 : aiProvider ≠ openaiId) (h2 : aiProvider ≠ geminiId)
    (h3 : aiProvider ≠ claudeId) :
    generateWebsite prompt aiProvider apiKey images existingCode transport =
      (Except.error (GenError.thrown unsupportedProviderMsg), 0) := by
  simp [generateWebsite, h1, h2, h3]

theorem unsupported_provider_no_fetch_witness :
    generateWebsite [] "grok".data [] [] none
        (fun _ _ _ => ⟨true, [], JsonVal.null⟩) =
      (Except.error (GenError.thrown unsupportedProviderMsg), 0) :=
  unsupported_provider_no_fetch [] "grok".data [] [] none _
    (by decide) (by decide) (by decide)

/-- C6: on a non-success transport outcome every adapter fails with a
thrown error whose message contains the provider name and the upstream
body text verbatim. -/
theorem upstream_error_surfaces_body (resp : HttpResp) (h : resp.ok = false) :
    (∃ m, callOpenAI resp = Except.error (GenError.thrown m) ∧
       "OpenAI".data <:+: m ∧ resp.bodyText <:+: m) ∧
    (∃ m, callGemini resp = Except.error (GenError.thrown m) ∧
       "Gemini".data <:+: m ∧ resp.bodyText <:+: m) ∧
    (∃ m, callClaude resp = Except.error (GenError.thrown m) ∧
       "Claude".data <:+: m ∧ resp.bodyText <:+: m) := by
  refine ⟨⟨openAIErrorLabel ++ resp.bodyText, ?_, ?_, ?_⟩,
          ⟨geminiErrorLabel ++ resp.bodyText, ?_, ?_, ?_⟩,
          ⟨claudeErrorLabel ++ resp.bodyText, ?_, ?_, ?_⟩⟩
  · simp [callOpenAI, h]
  · exact ⟨[], " API Error: ".data ++ resp.bodyText, by
      simp [openAIErrorLabel, List.append_assoc]⟩
  · exact ⟨openAIErrorLabel, [], by simp⟩
  · simp [callGemini, h]
  · exact ⟨[], " API Error: ".data ++ resp.bodyText, by
      simp [geminiErrorLabel, List.append_assoc]⟩
  · exact ⟨geminiErrorLabel, [], by simp⟩
  · simp [callClaude, h]
  · exact ⟨[], " API Error: ".data ++ resp.bodyText, by
      simp [claudeErrorLabel, List.append_assoc]⟩
  · exact ⟨claudeErrorLabel, [], by simp⟩

theorem upstream_error_surfaces_body_witness :
    ∃ m, callOpenAI ⟨false, "invalid api key".data, JsonVal.null⟩ =
        Except.error (GenError.thrown m) ∧
      "OpenAI".data <:+: m ∧ "invalid api key".data <:+: m :=
  (upstream_error_surfaces_body ⟨false, "invalid api key".data, JsonVal.null⟩
    rfl).1

/-- C2: on a successful response whose generated-text field is missing
from its parent object (or is null), each adapter returns the empty
string, which passes through extraction, rather than failing. -/
theorem missing_text_field_yields_empty
    (bodyText : List Char)
    (mfs pfs cfs : List (List Char × JsonVal))
    (moreChoices moreCands moreParts moreContent : List JsonVal)
    (hm : jlookup mfs contentKey = none ∨
      jlookup mfs contentKey = some JsonVal.null)
    (hp : jlookup pfs textKey = none ∨
      jlookup pfs textKey = some JsonVal.null)
    (hc : jlookup cfs textKey = none ∨
      jlookup cfs textKey = some JsonVal.null) :
    callOpenAI ⟨true, bodyText,
      JsonVal.obj [(choicesKey,
        JsonVal.arr (JsonVal.obj [(messageKey, JsonVal.obj mfs)] ::
          moreChoices))]⟩ = Except.ok [] ∧
    callGemini ⟨true, bodyText,
      JsonVal.obj [(candidatesKey,
        JsonVal.arr (JsonVal.obj [(contentKey,
          JsonVal.obj [(partsKey,
            JsonVal.arr (JsonVal.obj pfs :: moreParts))])] ::
          moreCands))]⟩ = Except.ok [] ∧
    callClaude ⟨true, bodyText,
      JsonVal.obj [(contentKey,
        JsonVal.arr (JsonVal.obj cfs :: moreContent))]⟩ = Except.ok [] := by
  refine ⟨?_, ?_, ?_⟩
  · rcases hm with h | h <;>
      simp [callOpenAI, openAIContent, propAccess, idxAccess, jlookup,
        isNullish, coerceCode, h, extractCode, fenceScan, htmlScan, jsTrim]
  · rcases hp with h | h <;>
      simp [callGemini, geminiContent, propAccess, idxAccess, jlookup,
        isNullish, coerceCode, h, extractCode, fenceScan, htmlScan, jsTrim]
  · rcases hc with h | h <;>
      simp [callClaude, claudeContent, propAccess, idxAccess, jlookup,
        isNullish, coerceCode, h, extractCode, fenceScan, htmlScan, jsTrim]

theorem missing_text_field_yields_empty_witness :
    callOpenAI ⟨true, [],
      JsonVal.obj [(choicesKey,
        JsonVal.arr [JsonVal.obj [(messageKey, JsonVal.obj [])]])]⟩ =
      Except.ok [] ∧
    callGemini ⟨true, [],
      JsonVal.obj [(candidatesKey,
        JsonVal.arr [JsonVal.obj [(contentKey,
          JsonVal.obj [(partsKey, JsonVal.arr [JsonVal.obj []])])]])]⟩ =
      Except.ok [] ∧
    callClaude ⟨true, [],
      JsonVal.obj [(contentKey, JsonVal.arr [JsonVal.obj []])]⟩ =
      Except.ok [] :=
  missing_text_field_yields_empty [] [] [] [] [] [] [] []
    (Or.inl rfl) (Or.inl rfl) (Or.inl rfl)

/-! ## Lemmas about the fenced-block scan -/

theorem findInterior_cons (c : Char) (rest : List Char) :
    findInterior (c :: rest) =
      if startsWithLit fenceClose rest then some [c]
      else (findInterior rest).map (fun i => c :: i) := rfl

theorem fenceScan_cons (c : Char) (rest : List Char) :
    fenceScan (c :: rest) =
      if startsWithLit fenceOpenHtml (c :: rest) then
        match findInterior ((c :: rest).drop 8) with
        | some i => some i
        | none => fenceScan rest
      else if startsWithLit fenceOpenPlain (c :: rest) then
        match findInterior ((c :: rest).drop 4) with
        | some i => some i
        | none => fenceScan rest
      else fenceScan rest := rfl

theorem startsWithLit_append_self (p t : List Char) :
    startsWithLit p (p ++ t) = true := by
  induction p with
  | nil => rfl
  | cons a ps ih => simp [startsWithLit, ih]

theorem exists_of_startsWithLit (p : List Char) :
    ∀ s, startsWithLit p s = true → ∃ t, s = p ++ t := by
  induction p with
  | nil => exact fun s _ => ⟨s, rfl⟩
  | cons a ps ih =>
    intro s h
    cases s with
    | nil => simp [startsWithLit] at h
    | cons c cs =>
      simp only [startsWithLit, Bool.and_eq_true, beq_iff_eq] at h
      obtain ⟨hac, h2⟩ := h
      subst hac
      obtain ⟨t, ht⟩ := ih cs h2
      exact ⟨t, by rw [ht]; rfl⟩

theorem findInterior_sound (s : List Char) :
    ∀ i, findInterior s = some i →
      i ≠ [] ∧ ∃ rest, s = i ++ fenceClose ++ rest := by
  induction s with
  | nil => intro i h; simp [findInterior] at h
  | cons c cs ih =>
    intro i h
    simp only [findInterior] at h
    split at h
    next hp =>
      injection h with h
      subst h
      obtain ⟨t, ht⟩ := exists_of_startsWithLit _ _ hp
      exact ⟨by simp, ⟨t, by rw [ht]; rfl⟩⟩
    next hp =>
      cases hfi : findInterior cs with
      | none => rw [hfi] at h; simp at h
      | some i0 =>
        rw [hfi] at h
        simp only [Option.map_some'] at h
        obtain ⟨hne, t, ht⟩ := ih i0 hfi
        injection h with h
        subst h
        exact ⟨by simp, ⟨t, by rw [ht]; rfl⟩⟩

theorem findInterior_compute (post : List Char) :
    ∀ interior : List Char, interior ≠ [] →
    (∀ k, k < interior.length → 1 ≤ k →
      startsWithLit fenceClose ((interior ++ fenceClose ++ post).drop k) =
        false) →
    findInterior (interior ++ fenceClose ++ post) = some interior := by
  intro interior
  induction interior with
  | nil => exact fun hne _ => absurd rfl hne
  | cons a int ih =>
    intro _ hlazy
    cases int with
    | nil =>
      show findInterior (a :: (fenceClose ++ post)) = some [a]
      rw [findInterior_cons,
        if_pos (startsWithLit_append_self fenceClose post)]
    | cons b int2 =>
      show findInterior (a :: ((b :: int2) ++ fenceClose ++ post)) =
        some (a :: (b :: int2))
      rw [findInterior_cons]
      have hc1 : startsWithLit fenceClose ((b :: int2) ++ fenceClose ++ post) =
          false := by
        have := hlazy 1 (by simp) (by omega)
        simpa using this
      rw [if_neg (by rw [hc1]; exact Bool.false_ne_true)]
      have hrec : findInterior ((b :: int2) ++ fenceClose ++ post) =
          some (b :: int2) := by
        apply ih (by simp)
        intro k hk h1
        have := hlazy (k + 1) (by simpa using Nat.succ_lt_succ hk) (by omega)
        simpa using this
      rw [hrec]
      rfl

theorem findInterior_complete (s : List Char) :
    ∀ i rest : List Char, i ≠ [] → s = i ++ fenceClose ++ rest →
      ∃ j, findInterior s = some j := by
  induction s with
  | nil =>
    intro i rest hne hs
    cases i with
    | nil => exact absurd rfl hne
    | cons a l => simp at hs
  | cons c cs ih =>
    intro i rest hne hs
    by_cases hp : startsWithLit fenceClose cs = true
    · exact ⟨[c], by simp only [findInterior]; rw [if_pos hp]⟩
    · cases i with
      | nil => exact absurd rfl hne
      | cons a i2 =>
        simp only [List.cons_append] at hs
        injection hs with h1 h2
        cases i2 with
        | nil =>
          exfalso
          apply hp
          rw [h2]
          simpa using startsWithLit_append_self fenceClose rest
        | cons b i3 =>
          obtain ⟨j, hj⟩ := ih (b :: i3) rest (by simp) (by simpa using h2)
          refine ⟨c :: j, ?_⟩
          simp only [findInterior]
          rw [if_neg hp, hj]
          rfl

theorem fenceMatchAt_cons {c : Char} {cs : List Char} {j : Nat}
    (h : FenceMatchAt cs j) : FenceMatchAt (c :: cs) (j + 1) := by
  obtain ⟨tag, i, r, h1, h2, h3⟩ := h
  exact ⟨tag, i, r, h1, h2, by rw [List.drop_succ_cons]; exact h3⟩

theorem fenceMatchAt_of_cons {c : Char} {cs : List Char} {j : Nat}
    (h : FenceMatchAt (c :: cs) (j + 1)) : FenceMatchAt cs j := by
  obtain ⟨tag, i, r, h1, h2, h3⟩ := h
  exact ⟨tag, i, r, h1, h2, by rw [List.drop_succ_cons] at h3; exact h3⟩

theorem not_html_open_of_plain (X : List Char) :
    startsWithLit fenceOpenHtml ('`' :: '`' :: '`' :: '\n' :: X) = false := by
  cases h : startsWithLit fenceOpenHtml ('`' :: '`' :: '`' :: '\n' :: X) with
  | false => rfl
  | true =>
    exfalso
    obtain ⟨t, ht⟩ := exists_of_startsWithLit _ _ h
    simp [fenceOpenHtml, fenceOpener, htmlTag] at ht

theorem length_fenceOpenHtml : fenceOpenHtml.length = 8 := rfl

theorem length_fenceOpenPlain : fenceOpenPlain.length = 4 := rfl

theorem fenceScan_sound (text : List Char) :
    ∀ i, fenceScan text = some i → ∃ j, FenceMatchAt text j := by
  induction text with
  | nil => intro i h; simp [fenceScan] at h
  | cons c cs ih =>
    intro i h
    simp only [fenceScan] at h
    split at h
    next hopen =>
      cases hfi : findInterior ((c :: cs).drop 8) with
      | some i0 =>
        obtain ⟨t, ht⟩ := exists_of_startsWithLit _ _ hopen
        obtain ⟨hne, r, hr⟩ := findInterior_sound _ _ hfi
        have hdrop : (c :: cs).drop 8 = t := by
          rw [ht]; exact List.drop_left' length_fenceOpenHtml
        refine ⟨0, htmlTag, i0, r, Or.inr rfl, hne, ?_⟩
        rw [List.drop_zero, ht, ← hdrop, hr]
        rfl
      | none =>
        rw [hfi] at h
        obtain ⟨j, hj⟩ := ih i h
        exact ⟨j + 1, fenceMatchAt_cons hj⟩
    next hopen1 =>
      split at h
      next hopen =>
        cases hfi : findInterior ((c :: cs).drop 4) with
        | some i0 =>
          obtain ⟨t, ht⟩ := exists_of_startsWithLit _ _ hopen
          obtain ⟨hne, r, hr⟩ := findInterior_sound _ _ hfi
          have hdrop : (c :: cs).drop 4 = t := by
            rw [ht]; exact List.drop_left' length_fenceOpenPlain
          refine ⟨0, [], i0, r, Or.inl rfl, hne, ?_⟩
          rw [List.drop_zero, ht, ← hdrop, hr]
          rfl
        | none =>
          rw [hfi] at h
          obtain ⟨j, hj⟩ := ih i h
          exact ⟨j + 1, fenceMatchAt_cons hj⟩
      next hopen =>
        obtain ⟨j, hj⟩ := ih i h
        exact ⟨j + 1, fenceMatchAt_cons hj⟩

theorem fenceScan_complete (text : List Char) :
    ∀ j, FenceMatchAt text j → ∃ i, fenceScan text = some i := by
  induction text with
  | nil =>
    intro j h
    obtain ⟨tag, i, r, h1, h2, h3⟩ := h
    rw [List.drop_nil] at h3
    rcases h1 with rfl | rfl <;> simp [fenceOpener, htmlTag] at h3
  | cons c cs ih =>
    intro j h
    cases j with
    | zero =>
      obtain ⟨tag, i, r, h1, h2, h3⟩ := h
      rw [List.drop_zero] at h3
      rcases h1 with rfl | rfl
      · have hplain : startsWithLit fenceOpenPlain (c :: cs) = true := by
          rw [h3]
          show startsWithLit fenceOpenPlain
            (fenceOpenPlain ++ (i ++ fenceClose ++ r)) = true
          exact startsWithLit_append_self _ _
        have hhtml : ¬ startsWithLit fenceOpenHtml (c :: cs) = true := by
          rw [h3]
          show ¬ startsWithLit fenceOpenHtml
            ('`' :: '`' :: '`' :: '\n' :: (i ++ fenceClose ++ r)) = true
          rw [not_html_open_of_plain]
          exact Bool.false_ne_true
        have hdrop : (c :: cs).drop 4 = i ++ fenceClose ++ r := by
          rw [h3]; rfl
        obtain ⟨j0, hj0⟩ := findInterior_complete (i ++ fenceClose ++ r) i r h2
          rfl
        refine ⟨j0, ?_⟩
        rw [fenceScan_cons, if_neg hhtml, if_pos hplain, hdrop, hj0]
      · have hhtml : startsWithLit fenceOpenHtml (c :: cs) = true := by
          rw [h3]
          show startsWithLit fenceOpenHtml
            (fenceOpenHtml ++ (i ++ fenceClose ++ r)) = true
          exact startsWithLit_append_self _ _
        have hdrop : (c :: cs).drop 8 = i ++ fenceClose ++ r := by
          rw [h3]; rfl
        obtain ⟨j0, hj0⟩ := findInterior_complete (i ++ fenceClose ++ r) i r h2
          rfl
        refine ⟨j0, ?_⟩
        rw [fenceScan_cons, if_pos hhtml, hdrop, hj0]
    | succ j0 =>
      obtain ⟨i0, hi0⟩ := ih j0 (fenceMatchAt_of_cons h)
      rw [fenceScan_cons]
      split
      next hopen =>
        cases hfi : findInterior ((c :: cs).drop 8) with
        | some i1 => exact ⟨i1, rfl⟩
        | none => exact ⟨i0, hi0⟩
      next hopen =>
        split
        next hopen2 =>
          cases hfi : findInterior ((c :: cs).drop 4) with
          | some i1 => exact ⟨i1, rfl⟩
          | none => exact ⟨i0, hi0⟩
        next hopen2 => exact ⟨i0, hi0⟩

theorem fenceScan_none_iff (text : List Char) :
    fenceScan text = none ↔ ∀ j, ¬ FenceMatchAt text j := by
  constructor
  · intro h j hm
    obtain ⟨i, hi⟩ := fenceScan_complete text j hm
    rw [h] at hi
    exact Option.noConfusion hi
  · intro h
    cases hs : fenceScan text with
    | none => rfl
    | some i =>
      obtain ⟨j, hj⟩ := fenceScan_sound text i hs
      exact absurd hj (h j)

theorem fenceScan_compute (tag interior post : List Char)
    (htag : tag = [] ∨ tag = htmlTag) (hne : interior ≠ [])
    (hlazy : ∀ k, k < interior.length → 1 ≤ k →
      startsWithLit fenceClose ((interior ++ fenceClose ++ post).drop k) =
        false) :
    ∀ pre : List Char,
    (∀ j, j < pre.length →
      ¬ FenceMatchAt (pre ++ fenceOpener tag ++ interior ++ fenceClose ++ post)
        j) →
    fenceScan (pre ++ fenceOpener tag ++ interior ++ fenceClose ++ post) =
      some interior := by
  intro pre
  induction pre with
  | nil =>
    intro _
    have hFI : findInterior (interior ++ fenceClose ++ post) = some interior :=
      findInterior_compute post interior hne hlazy
    rcases htag with rfl | rfl
    · show fenceScan ('`' :: '`' :: '`' :: '\n' ::
        (interior ++ fenceClose ++ post)) = some interior
      rw [fenceScan_cons]
      rw [if_neg (by rw [not_html_open_of_plain]; exact Bool.false_ne_true)]
      rw [if_pos (by
        show startsWithLit fenceOpenPlain
          (fenceOpenPlain ++ (interior ++ fenceClose ++ post)) = true
        exact startsWithLit_append_self _ _)]
      show (match findInterior (interior ++ fenceClose ++ post) with
        | some i => some i
        | none => fenceScan ('`' :: '`' :: '\n' ::
            (interior ++ fenceClose ++ post))) = some interior
      rw [hFI]
    · show fenceScan ('`' :: '`' :: '`' :: 'h' :: 't' :: 'm' :: 'l' :: '\n' ::
        (interior ++ fenceClose ++ post)) = some interior
      rw [fenceScan_cons]
      rw [if_pos (by
        show startsWithLit fenceOpenHtml
          (fenceOpenHtml ++ (interior ++ fenceClose ++ post)) = true
        exact startsWithLit_append_self _ _)]
      show (match findInterior (interior ++ fenceClose ++ post) with
        | some i => some i
        | none => fenceScan ('`' :: '`' :: 'h' :: 't' :: 'm' :: 'l' :: '\n' ::
            (interior ++ fenceClose ++ post))) = some interior
      rw [hFI]
  | cons p ps ih =>
    intro hfirst
    have htail : ∀ j, j < ps.length →
        ¬ FenceMatchAt (ps ++ fenceOpener tag ++ interior ++ fenceClose ++ post)
          j := by
      intro j hj hm
      exact hfirst (j + 1) (by simpa using Nat.succ_lt_succ hj)
        (fenceMatchAt_cons hm)
    have hstep := ih htail
    show fenceScan (p ::
      (ps ++ fenceOpener tag ++ interior ++ fenceClose ++ post)) =
      some interior
    rw [fenceScan_cons]
    split
    next hopen =>
      cases hfi : findInterior ((p ::
          (ps ++ fenceOpener tag ++ interior ++ fenceClose ++ post)).drop 8)
          with
      | some i1 =>
        exfalso
        obtain ⟨t, ht⟩ := exists_of_startsWithLit _ _ hopen
        obtain ⟨hne1, r, hr⟩ := findInterior_sound _ _ hfi
        have hdrop : (p ::
            (ps ++ fenceOpener tag ++ interior ++ fenceClose ++ post)).drop 8 =
            t := by
          rw [ht]; exact List.drop_left' length_fenceOpenHtml
        refine hfirst 0 (by simp) ⟨htmlTag, i1, r, Or.inr rfl, hne1, ?_⟩
        rw [List.drop_zero]
        show p :: (ps ++ fenceOpener tag ++ interior ++ fenceClose ++ post) =
          fenceOpener htmlTag ++ i1 ++ fenceClose ++ r
        rw [ht, ← hdrop, hr]
        rfl
      | none => exact hstep
    next hopen1 =>
      split
      next hopen =>
        cases hfi : findInterior ((p ::
            (ps ++ fenceOpener tag ++ interior ++ fenceClose ++ post)).drop 4)
            with
        | some i1 =>
          exfalso
          obtain ⟨t, ht⟩ := exists_of_startsWithLit _ _ hopen
          obtain ⟨hne1, r, hr⟩ := findInterior_sound _ _ hfi
          have hdrop : (p ::
              (ps ++ fenceOpener tag ++ interior ++ fenceClose ++ post)).drop 4
              = t := by
            rw [ht]; exact List.drop_left' length_fenceOpenPlain
          refine hfirst 0 (by simp) ⟨[], i1, r, Or.inl rfl, hne1, ?_⟩
          rw [List.drop_zero]
          show p :: (ps ++ fenceOpener tag ++ interior ++ fenceClose ++ post) =
            fenceOpener [] ++ i1 ++ fenceClose ++ r
          rw [ht, ← hdrop, hr]
          rfl
        | none => exact hstep
      next hopen => exact hstep

/-- C1: when the raw text decomposes as some prefix, a well-formed fenced
block (three backticks, optional html tag, newline, nonempty interior,
newline, three backticks) and a suffix, where no full match of the
fenced-block regex starts inside the prefix (this block is the first) and
the block's closing delimiter is the nearest one (the regex's lazy
interior), extractCode returns exactly the trimmed interior of that
block. -/
theorem extractCode_first_fence (pre tag interior post : List Char)
    (htag : tag = [] ∨ tag = htmlTag) (hne : interior ≠ [])
    (hfirst : ∀ j, j < pre.length →
      ¬ FenceMatchAt (pre ++ fenceOpener tag ++ interior ++ fenceClose ++ post)
        j)
    (hlazy : ∀ k, k < interior.length → 1 ≤ k →
      startsWithLit fenceClose ((interior ++ fenceClose ++ post).drop k) =
        false) :
    extractCode (pre ++ fenceOpener tag ++ interior ++ fenceClose ++ post) =
      jsTrim interior := by
  have h := fenceScan_compute tag interior post htag hne hlazy pre hfirst
  unfold extractCode
  rw [h]

theorem extractCode_first_fence_witness :
    extractCode ("```html\nA\n```done".data) = ['A'] := by
  have e : "```html\nA\n```done".data =
      [] ++ fenceOpener htmlTag ++ ['A'] ++ fenceClose ++ "done".data := rfl
  have h := extractCode_first_fence [] htmlTag ['A'] "done".data (Or.inr rfl)
    (by decide)
    (by intro j hj; exact absurd hj (Nat.not_lt_zero j))
    (by decide)
  rw [e, h]
  decide

/-! ## Lemmas about the document scan -/

theorem findHtmlClose_cons (c : Char) (rest : List Char) :
    findHtmlClose (c :: rest) =
      if ciMatchList closeHtmlPat rest then some (c :: rest.take 7)
      else (findHtmlClose rest).map (fun l => c :: l) := rfl

theorem htmlScan_cons (c : Char) (rest : List Char) :
    htmlScan (c :: rest) =
      if ciMatchList doctypePat (c :: rest) then
        match findHtmlClose ((c :: rest).drop 14) with
        | some l => some ((c :: rest).take 14 ++ l)
        | none => htmlScan rest
      else htmlScan rest := rfl

theorem ciMatchList_append_of_exact (pat : List Char) :
    ∀ u, CiExact pat u → ∀ v, ciMatchList pat (u ++ v) = true := by
  induction pat with
  | nil => intro u _ v; rfl
  | cons p ps ih =>
    intro u hu v
    obtain ⟨hlen, hm⟩ := hu
    cases u with
    | nil => simp at hlen
    | cons c cs =>
      simp only [ciMatchList, Bool.and_eq_true] at hm
      show ciMatchList (p :: ps) (c :: (cs ++ v)) = true
      simp only [ciMatchList, Bool.and_eq_true]
      exact ⟨hm.1, ih cs ⟨by simpa using hlen, hm.2⟩ v⟩

theorem ciMatchList_take (pat : List Char) :
    ∀ s, ciMatchList pat s = true → CiExact pat (s.take pat.length) := by
  induction pat with
  | nil => intro s _; exact ⟨rfl, rfl⟩
  | cons p ps ih =>
    intro s h
    cases s with
    | nil => simp [ciMatchList] at h
    | cons c cs =>
      simp only [ciMatchList, Bool.and_eq_true] at h
      obtain ⟨h1, h2⟩ := h
      obtain ⟨hlen, hmatch⟩ := ih cs h2
      constructor
      · show (c :: cs.take ps.length).length = (p :: ps).length
        simp [hlen]
      · show ciMatchList (p :: ps) (c :: cs.take ps.length) = true
        simp only [ciMatchList, Bool.and_eq_true]
        exact ⟨h1, hmatch⟩

theorem findHtmlClose_sound (s : List Char) :
    ∀ l, findHtmlClose s = some l →
      ∃ body e rest, body ≠ [] ∧ CiExact closeHtmlPat e ∧
        s = body ++ e ++ rest ∧ l = body ++ e := by
  induction s with
  | nil => intro l h; simp [findHtmlClose] at h
  | cons c cs ih =>
    intro l h
    rw [findHtmlClose_cons] at h
    split at h
    next hp =>
      injection h with h
      subst h
      have hex := ciMatchList_take closeHtmlPat cs hp
      refine ⟨[c], cs.take 7, cs.drop 7, by simp, hex, by simp, rfl⟩
    next hp =>
      cases hfc : findHtmlClose cs with
      | none => rw [hfc] at h; simp at h
      | some l0 =>
        rw [hfc] at h
        simp only [Option.map_some'] at h
        obtain ⟨body, e, rest, hb, he, hs, hl⟩ := ih l0 hfc
        injection h with h
        subst h
        refine ⟨c :: body, e, rest, by simp, he, ?_, ?_⟩
        · rw [hs]; rfl
        · rw [hl]; rfl

theorem findHtmlClose_compute (post : List Char) :
    ∀ body : List Char, body ≠ [] →
    ∀ e : List Char, CiExact closeHtmlPat e →
    (∀ k, k < body.length → 1 ≤ k →
      ciMatchList closeHtmlPat ((body ++ e ++ post).drop k) = false) →
    findHtmlClose (body ++ e ++ post) = some (body ++ e) := by
  intro body
  induction body with
  | nil => exact fun h _ _ _ => absurd rfl h
  | cons a body2 ih =>
    intro _ e he hlazy
    cases body2 with
    | nil =>
      show findHtmlClose (a :: (e ++ post)) = some (a :: e)
      rw [findHtmlClose_cons]
      rw [if_pos (ciMatchList_append_of_exact closeHtmlPat e he post)]
      have htake : (e ++ post).take 7 = e := List.take_left' he.1
      rw [htake]
    | cons b body3 =>
      show findHtmlClose (a :: ((b :: body3) ++ e ++ post)) =
        some (a :: ((b :: body3) ++ e))
      rw [findHtmlClose_cons]
      have hc1 : ciMatchList closeHtmlPat ((b :: body3) ++ e ++ post) =
          false := by
        have := hlazy 1 (by simp) (by omega)
        simpa using this
      rw [if_neg (by rw [hc1]; exact Bool.false_ne_true)]
      have hrec : findHtmlClose ((b :: body3) ++ e ++ post) =
          some ((b :: body3) ++ e) := by
        apply ih (by simp) e he
        intro k hk h1
        have := hlazy (k + 1) (by simpa using Nat.succ_lt_succ hk) (by omega)
        simpa using this
      rw [hrec]
      rfl

theorem findHtmlClose_complete (s : List Char) :
    ∀ body e rest : List Char, body ≠ [] → CiExact closeHtmlPat e →
      s = body ++ e ++ rest → ∃ l, findHtmlClose s = some l := by
  induction s with
  | nil =>
    intro body e rest hb _ hs
    cases body with
    | nil => exact absurd rfl hb
    | cons a l => simp at hs
  | cons c cs ih =>
    intro body e rest hb he hs
    by_cases hp : ciMatchList closeHtmlPat cs = true
    · exact ⟨c :: cs.take 7, by rw [findHtmlClose_cons, if_pos hp]⟩
    · cases body with
      | nil => exact absurd rfl hb
      | cons a body2 =>
        simp only [List.cons_append] at hs
        injection hs with h1 h2
        cases body2 with
        | nil =>
          exfalso
          apply hp
          rw [show cs = e ++ rest from by simpa using h2]
          exact ciMatchList_append_of_exact closeHtmlPat e he rest
        | cons b body3 =>
          obtain ⟨l, hl⟩ := ih (b :: body3) e rest (by simp) he
            (by simpa using h2)
          refine ⟨c :: l, ?_⟩
          rw [findHtmlClose_cons, if_neg hp, hl]
          rfl

theorem htmlMatchAt_cons {c : Char} {cs : List Char} {j : Nat}
    (h : HtmlMatchAt cs j) : HtmlMatchAt (c :: cs) (j + 1) := by
  obtain ⟨d, body, e, rest, h1, h2, h3, h4⟩ := h
  exact ⟨d, body, e, rest, h1, h2, h3, by
    rw [List.drop_succ_cons]; exact h4⟩

theorem htmlMatchAt_of_cons {c : Char} {cs : List Char} {j : Nat}
    (h : HtmlMatchAt (c :: cs) (j + 1)) : HtmlMatchAt cs j := by
  obtain ⟨d, body, e, rest, h1, h2, h3, h4⟩ := h
  exact ⟨d, body, e, rest, h1, h2, h3, by
    rw [List.drop_succ_cons] at h4; exact h4⟩

theorem htmlScan_sound (text : List Char) :
    ∀ l, htmlScan text = some l →
      (∃ j, HtmlMatchAt text j) ∧
      ∃ d body e, CiExact doctypePat d ∧ CiExact closeHtmlPat e ∧
        body ≠ [] ∧ l = d ++ body ++ e := by
  induction text with
  | nil => intro l h; simp [htmlScan] at h
  | cons c cs ih =>
    intro l h
    rw [htmlScan_cons] at h
    split at h
    next hp =>
      cases hfc : findHtmlClose ((c :: cs).drop 14) with
      | some l0 =>
        rw [hfc] at h
        injection h with h
        subst h
        have hex := ciMatchList_take doctypePat (c :: cs) hp
        obtain ⟨body, e, rest, hb, he, hs, hl⟩ := findHtmlClose_sound _ _ hfc
        constructor
        · refine ⟨0, (c :: cs).take 14, body, e, rest, hex, he, hb, ?_⟩
          rw [List.drop_zero]
          calc c :: cs
              = (c :: cs).take 14 ++ (c :: cs).drop 14 :=
                (List.take_append_drop 14 (c :: cs)).symm
            _ = (c :: cs).take 14 ++ (body ++ e ++ rest) := by rw [hs]
            _ = (c :: cs).take 14 ++ body ++ e ++ rest := by
                simp [List.append_assoc]
        · exact ⟨(c :: cs).take 14, body, e, hex, he, hb, by
            rw [hl]; simp [List.append_assoc]⟩
      | none =>
        rw [hfc] at h
        obtain ⟨⟨j, hj⟩, rest2⟩ := ih l h
        exact ⟨⟨j + 1, htmlMatchAt_cons hj⟩, rest2⟩
    next hp =>
      obtain ⟨⟨j, hj⟩, rest2⟩ := ih l h
      exact ⟨⟨j + 1, htmlMatchAt_cons hj⟩, rest2⟩

theorem htmlScan_complete (text : List Char) :
    ∀ j, HtmlMatchAt text j → ∃ l, htmlScan text = some l := by
  induction text with
  | nil =>
    intro j h
    obtain ⟨d, body, e, rest, hd, _, _, h3⟩ := h
    rw [List.drop_nil] at h3
    have hdnil : d = [] := by
      cases d with
      | nil => rfl
      | cons a l => simp at h3
    rw [hdnil] at hd
    exact absurd hd.1 (by decide)
  | cons c cs ih =>
    intro j h
    cases j with
    | zero =>
      obtain ⟨d, body, e, rest, hd, he, hb, h3⟩ := h
      rw [List.drop_zero] at h3
      have h3a : c :: cs = d ++ (body ++ (e ++ rest)) := by
        rw [h3]; simp [List.append_assoc]
      have hp : ciMatchList doctypePat (c :: cs) = true := by
        rw [h3a]
        exact ciMatchList_append_of_exact doctypePat d hd _
      have hdrop : (c :: cs).drop 14 = body ++ (e ++ rest) := by
        rw [h3a]
        exact List.drop_left' hd.1
      obtain ⟨l, hl⟩ := findHtmlClose_complete ((c :: cs).drop 14) body e rest
        hb he (by rw [hdrop]; simp [List.append_assoc])
      refine ⟨(c :: cs).take 14 ++ l, ?_⟩
      rw [htmlScan_cons, if_pos hp, hl]
    | succ j0 =>
      obtain ⟨l0, hl0⟩ := ih j0 (htmlMatchAt_of_cons h)
      rw [htmlScan_cons]
      split
      next hp =>
        cases hfc : findHtmlClose ((c :: cs).drop 14) with
        | some l1 => exact ⟨(c :: cs).take 14 ++ l1, rfl⟩
        | none => exact ⟨l0, hl0⟩
      next hp => exact ⟨l0, hl0⟩

theorem htmlScan_none_iff (text : List Char) :
    htmlScan text = none ↔ ∀ j, ¬ HtmlMatchAt text j := by
  constructor
  · intro h j hm
    obtain ⟨l, hl⟩ := htmlScan_complete text j hm
    rw [h] at hl
    exact Option.noConfusion hl
  · intro h
    cases hs : htmlScan text with
    | none => rfl
    | some l =>
      obtain ⟨⟨j, hj⟩, _⟩ := htmlScan_sound text l hs
      exact absurd hj (h j)

theorem htmlScan_compute (d body e post : List Char)
    (hd : CiExact doctypePat d) (he : CiExact closeHtmlPat e) (hb : body ≠ [])
    (hlazy : ∀ k, k < body.length → 1 ≤ k →
      ciMatchList closeHtmlPat ((body ++ e ++ post).drop k) = false) :
    ∀ pre : List Char,
    (∀ j, j < pre.length → ¬ HtmlMatchAt (pre ++ d ++ body ++ e ++ post) j) →
    htmlScan (pre ++ d ++ body ++ e ++ post) = some (d ++ body ++ e) := by
  intro pre
  induction pre with
  | nil =>
    intro _
    obtain ⟨c, d2, rfl⟩ : ∃ c d2, d = c :: d2 := by
      cases d with
      | nil => exact absurd hd.1 (by decide)
      | cons c d2 => exact ⟨c, d2, rfl⟩
    show htmlScan (c :: (d2 ++ body ++ e ++ post)) =
      some ((c :: d2) ++ body ++ e)
    rw [htmlScan_cons]
    have hass : c :: (d2 ++ body ++ e ++ post) =
        (c :: d2) ++ (body ++ (e ++ post)) := by simp [List.append_assoc]
    have hp : ciMatchList doctypePat (c :: (d2 ++ body ++ e ++ post)) =
        true := by
      rw [hass]
      exact ciMatchList_append_of_exact doctypePat _ hd _
    rw [if_pos hp]
    have htake : (c :: (d2 ++ body ++ e ++ post)).take 14 = c :: d2 := by
      rw [hass]
      exact List.take_left' hd.1
    have hdrop : (c :: (d2 ++ body ++ e ++ post)).drop 14 =
        body ++ e ++ post := by
      rw [hass, List.drop_left' (show (c :: d2).length = 14 from hd.1)]
      simp [List.append_assoc]
    have hrec := findHtmlClose_compute post body hb e he hlazy
    rw [hdrop, hrec]
    show some ((c :: (d2 ++ body ++ e ++ post)).take 14 ++ (body ++ e)) =
      some ((c :: d2) ++ body ++ e)
    rw [htake]
    simp [List.append_assoc]
  | cons p ps ih =>
    intro hfirst
    have htail : ∀ j, j < ps.length →
        ¬ HtmlMatchAt (ps ++ d ++ body ++ e ++ post) j := by
      intro j hj hm
      exact hfirst (j + 1) (by simpa using Nat.succ_lt_succ hj)
        (htmlMatchAt_cons hm)
    have hstep := ih htail
    show htmlScan (p :: (ps ++ d ++ body ++ e ++ post)) =
      some (d ++ body ++ e)
    rw [htmlScan_cons]
    split
    next hopen =>
      cases hfc : findHtmlClose
          ((p :: (ps ++ d ++ body ++ e ++ post)).drop 14) with
      | some l1 =>
        exfalso
        have hex := ciMatchList_take doctypePat _ hopen
        obtain ⟨body1, e1, rest1, hb1, he1, hs1, _⟩ :=
          findHtmlClose_sound _ _ hfc
        refine hfirst 0 (by simp)
          ⟨(p :: (ps ++ d ++ body ++ e ++ post)).take 14, body1, e1, rest1,
            hex, he1, hb1, ?_⟩
        rw [List.drop_zero]
        show p :: (ps ++ d ++ body ++ e ++ post) =
          (p :: (ps ++ d ++ body ++ e ++ post)).take 14 ++ body1 ++ e1 ++ rest1
        calc p :: (ps ++ d ++ body ++ e ++ post)
            = (p :: (ps ++ d ++ body ++ e ++ post)).take 14 ++
                (p :: (ps ++ d ++ body ++ e ++ post)).drop 14 :=
              (List.take_append_drop 14 _).symm
          _ = (p :: (ps ++ d ++ body ++ e ++ post)).take 14 ++
                (body1 ++ e1 ++ rest1) := by rw [hs1]
          _ = (p :: (ps ++ d ++ body ++ e ++ post)).take 14 ++
                body1 ++ e1 ++ rest1 := by simp [List.append_assoc]
      | none => exact hstep
    next hopen => exact hstep

/-- C3: when the raw text decomposes as a prefix with no earlier document
match, a case-insensitive document-type declaration, a nonempty body, the
nearest case-insensitive closing tag and a suffix, and the text contains
no fenced-block match at all, extractCode returns exactly that span, with
its original characters. -/
theorem extractCode_doctype_span (pre d body e post : List Char)
    (hd : CiExact doctypePat d) (he : CiExact closeHtmlPat e) (hb : body ≠ [])
    (hnofence : ∀ j, ¬ FenceMatchAt (pre ++ d ++ body ++ e ++ post) j)
    (hfirst : ∀ j, j < pre.length →
      ¬ HtmlMatchAt (pre ++ d ++ body ++ e ++ post) j)
    (hlazy : ∀ k, k < body.length → 1 ≤ k →
      ciMatchList closeHtmlPat ((body ++ e ++ post).drop k) = false) :
    extractCode (pre ++ d ++ body ++ e ++ post) = d ++ body ++ e := by
  have hf : fenceScan (pre ++ d ++ body ++ e ++ post) = none :=
    (fenceScan_none_iff _).mpr hnofence
  have hh := htmlScan_compute d body e post hd he hb hlazy pre hfirst
  unfold extractCode
  rw [hf, hh]

theorem extractCode_doctype_span_witness :
    extractCode ([] ++ "<!DOCTYPE html".data ++ ['>', 'x'] ++ "</html>".data ++
        " trailing".data) =
      "<!DOCTYPE html".data ++ ['>', 'x'] ++ "</html>".data :=
  extractCode_doctype_span [] "<!DOCTYPE html".data ['>', 'x'] "</html>".data
    " trailing".data ⟨by decide, by decide⟩ ⟨by decide, by decide⟩ (by decide)
    ((fenceScan_none_iff _).mp rfl)
    (by intro j hj; exact absurd hj (Nat.not_lt_zero j))
    (by decide)

/-! ## Lemmas about trimming -/

theorem dropWhile_head_not (p : Char → Bool) (l : List Char) :
    ∀ c t, l.dropWhile p = c :: t → p c = false := by
  induction l with
  | nil => intro c t h; simp [List.dropWhile] at h
  | cons a l ih =>
    intro c t h
    by_cases hp : p a = true
    · rw [List.dropWhile_cons_of_pos hp] at h
      exact ih c t h
    · rw [List.dropWhile_cons_of_neg hp] at h
      injection h with h1 _
      subst h1
      exact Bool.eq_false_iff.mpr hp

theorem dropWhile_eq_self_of_head (p : Char → Bool) (c : Char) (t : List Char)
    (h : p c = false) : (c :: t).dropWhile p = c :: t :=
  List.dropWhile_cons_of_neg (by simp [h])

theorem jsTrim_ends (s : List Char) :
    jsTrim s = [] ∨ (∃ c, jsTrim s = [c] ∧ isJsWs c = false) ∨
    (∃ c mid cl, jsTrim s = c :: (mid ++ [cl]) ∧ isJsWs c = false ∧
      isJsWs cl = false) := by
  cases hb : (s.dropWhile isJsWs).reverse.dropWhile isJsWs with
  | nil =>
    left
    show ((s.dropWhile isJsWs).reverse.dropWhile isJsWs).reverse = []
    rw [hb]
    rfl
  | cons d b2 =>
    have hd : isJsWs d = false := dropWhile_head_not _ _ _ _ hb
    obtain ⟨w, hwa⟩ : ∃ w, s.dropWhile isJsWs = (d :: b2).reverse ++ w := by
      refine ⟨((s.dropWhile isJsWs).reverse.takeWhile isJsWs).reverse, ?_⟩
      calc s.dropWhile isJsWs
          = (s.dropWhile isJsWs).reverse.reverse := by rw [List.reverse_reverse]
        _ = ((s.dropWhile isJsWs).reverse.takeWhile isJsWs ++
              (s.dropWhile isJsWs).reverse.dropWhile isJsWs).reverse := by
            rw [List.takeWhile_append_dropWhile]
        _ = ((s.dropWhile isJsWs).reverse.takeWhile isJsWs ++
              (d :: b2)).reverse := by rw [hb]
        _ = (d :: b2).reverse ++
              ((s.dropWhile isJsWs).reverse.takeWhile isJsWs).reverse := by
            rw [List.reverse_append]
    have hres : jsTrim s = (d :: b2).reverse := by
      show ((s.dropWhile isJsWs).reverse.dropWhile isJsWs).reverse = _
      rw [hb]
    cases hb2 : b2.reverse with
    | nil =>
      right; left
      refine ⟨d, ?_, hd⟩
      rw [hres, List.reverse_cons, hb2]
      rfl
    | cons ech m =>
      right; right
      have hrev : (d :: b2).reverse = ech :: (m ++ [d]) := by
        rw [List.reverse_cons, hb2]
        rfl
      refine ⟨ech, m, d, by rw [hres, hrev], ?_, hd⟩
      apply dropWhile_head_not isJsWs s ech (m ++ [d] ++ w)
      rw [hwa, hrev]
      rfl

theorem jsTrim_eq_of_ends (c cl : Char) (mid : List Char)
    (h1 : isJsWs c = false) (h2 : isJsWs cl = false) :
    jsTrim (c :: (mid ++ [cl])) = c :: (mid ++ [cl]) := by
  unfold jsTrim
  rw [dropWhile_eq_self_of_head _ _ _ h1]
  have hrev : (c :: (mid ++ [cl])).reverse = cl :: (mid.reverse ++ [c]) := by
    simp
  rw [hrev, dropWhile_eq_self_of_head _ _ _ h2, ← hrev, List.reverse_reverse]

theorem jsTrim_single (c : Char) (h : isJsWs c = false) :
    jsTrim [c] = [c] := by
  unfold jsTrim
  rw [dropWhile_eq_self_of_head _ _ _ h]
  show (([c] : List Char).reverse.dropWhile isJsWs).reverse = [c]
  rw [show ([c] : List Char).reverse = [c] from rfl,
    dropWhile_eq_self_of_head _ _ _ h]
  rfl

theorem jsTrim_idem (s : List Char) : jsTrim (jsTrim s) = jsTrim s := by
  rcases jsTrim_ends s with h | ⟨c, h, hc⟩ | ⟨c, mid, cl, h, hc, hcl⟩
  · rw [h]; rfl
  · rw [h]; exact jsTrim_single c hc
  · rw [h]; exact jsTrim_eq_of_ends c cl mid hc hcl

theorem jsTrim_decomp (s : List Char) :
    ∃ w1 w2, s = w1 ++ jsTrim s ++ w2 := by
  refine ⟨s.takeWhile isJsWs,
    ((s.dropWhile isJsWs).reverse.takeWhile isJsWs).reverse, ?_⟩
  have h1 : s.takeWhile isJsWs ++ s.dropWhile isJsWs = s :=
    List.takeWhile_append_dropWhile isJsWs s
  have h2 : (s.dropWhile isJsWs).reverse.takeWhile isJsWs ++
      (s.dropWhile isJsWs).reverse.dropWhile isJsWs =
      (s.dropWhile isJsWs).reverse :=
    List.takeWhile_append_dropWhile isJsWs (s.dropWhile isJsWs).reverse
  have h3 : s.dropWhile isJsWs = jsTrim s ++
      ((s.dropWhile isJsWs).reverse.takeWhile isJsWs).reverse := by
    have h4 := congrArg List.reverse h2
    rw [List.reverse_append, List.reverse_reverse] at h4
    exact h4.symm
  calc s = s.takeWhile isJsWs ++ s.dropWhile isJsWs := h1.symm
    _ = s.takeWhile isJsWs ++ (jsTrim s ++
          ((s.dropWhile isJsWs).reverse.takeWhile isJsWs).reverse) := by
        rw [← h3]
    _ = s.takeWhile isJsWs ++ jsTrim s ++
          ((s.dropWhile isJsWs).reverse.takeWhile isJsWs).reverse := by
        rw [List.append_assoc]

/-! ## Shift lemmas (a match inside an infix is a match of the whole) -/

theorem fenceMatchAt_shift (w1 mid w2 : List Char) (j : Nat)
    (h : FenceMatchAt mid j) :
    FenceMatchAt (w1 ++ mid ++ w2) (w1.length + j) := by
  obtain ⟨tag, i, r, h1, h2, h3⟩ := h
  refine ⟨tag, i, r ++ w2, h1, h2, ?_⟩
  have hj : j ≤ mid.length := by
    by_contra hgt
    push_neg at hgt
    have hnil : mid.drop j = [] := List.drop_eq_nil_iff.mpr (le_of_lt hgt)
    rw [hnil] at h3
    rcases h1 with rfl | rfl <;> simp [fenceOpener, htmlTag] at h3
  calc ((w1 ++ mid) ++ w2).drop (w1.length + j)
      = (w1 ++ (mid ++ w2)).drop (w1.length + j) := by rw [List.append_assoc]
    _ = (mid ++ w2).drop j := by rw [← List.drop_drop, List.drop_left]
    _ = mid.drop j ++ w2 := List.drop_append_of_le_length hj
    _ = fenceOpener tag ++ i ++ fenceClose ++ (r ++ w2) := by
        rw [h3]; simp [List.append_assoc]

theorem htmlMatchAt_shift (w1 mid w2 : List Char) (j : Nat)
    (h : HtmlMatchAt mid j) :
    HtmlMatchAt (w1 ++ mid ++ w2) (w1.length + j) := by
  obtain ⟨d, body, e, r, hd, he, hb, h3⟩ := h
  refine ⟨d, body, e, r ++ w2, hd, he, hb, ?_⟩
  have hj : j ≤ mid.length := by
    by_contra hgt
    push_neg at hgt
    have hnil : mid.drop j = [] := List.drop_eq_nil_iff.mpr (le_of_lt hgt)
    rw [hnil] at h3
    have hdnil : d = [] := by
      cases d with
      | nil => rfl
      | cons a l => simp at h3
    rw [hdnil] at hd
    exact absurd hd.1 (by decide)
  calc ((w1 ++ mid) ++ w2).drop (w1.length + j)
      = (w1 ++ (mid ++ w2)).drop (w1.length + j) := by rw [List.append_assoc]
    _ = (mid ++ w2).drop j := by rw [← List.drop_drop, List.drop_left]
    _ = mid.drop j ++ w2 := List.drop_append_of_le_length hj
    _ = d ++ body ++ e ++ (r ++ w2) := by
        rw [h3]; simp [List.append_assoc]

/-- C4: on raw text matching neither regex, extractCode returns the input
trimmed, and it is idempotent in the sense
extract (trim (extract x)) = extract x. -/
theorem extractCode_no_pattern_trims (x : List Char)
    (hf : ∀ j, ¬ FenceMatchAt x j) (hh : ∀ j, ¬ HtmlMatchAt x j) :
    extractCode x = jsTrim x ∧
    extractCode (jsTrim (extractCode x)) = extractCode x := by
  have hfs : fenceScan x = none := (fenceScan_none_iff x).mpr hf
  have hhs : htmlScan x = none := (htmlScan_none_iff x).mpr hh
  have h1 : extractCode x = jsTrim x := by
    unfold extractCode
    rw [hfs, hhs]
  obtain ⟨w1, w2, hw⟩ := jsTrim_decomp x
  have hf2 : ∀ j, ¬ FenceMatchAt (jsTrim x) j := by
    intro j hm
    have hs := fenceMatchAt_shift w1 (jsTrim x) w2 j hm
    rw [← hw] at hs
    exact hf _ hs
  have hh2 : ∀ j, ¬ HtmlMatchAt (jsTrim x) j := by
    intro j hm
    have hs := htmlMatchAt_shift w1 (jsTrim x) w2 j hm
    rw [← hw] at hs
    exact hh _ hs
  have hfs2 : fenceScan (jsTrim x) = none := (fenceScan_none_iff _).mpr hf2
  have hhs2 : htmlScan (jsTrim x) = none := (htmlScan_none_iff _).mpr hh2
  refine ⟨h1, ?_⟩
  rw [h1, jsTrim_idem]
  have h2 : extractCode (jsTrim x) = jsTrim (jsTrim x) := by
    unfold extractCode
    rw [hfs2, hhs2]
  rw [h2, jsTrim_idem]

theorem extractCode_no_pattern_trims_witness :
    extractCode "Sorry, I cannot help with that.".data =
      jsTrim "Sorry, I cannot help with that.".data ∧
    extractCode
        (jsTrim (extractCode "Sorry, I cannot help with that.".data)) =
      extractCode "Sorry, I cannot help with that.".data :=
  extractCode_no_pattern_trims _
    ((fenceScan_none_iff _).mp rfl) ((htmlScan_none_iff _).mp rfl)

/-! ## The document span begins with the open angle and ends with the
close angle, so it carries no surrounding whitespace -/

theorem charMatches_lt {c : Char} (h : charMatches '<' c = true) :
    c = '<' := by
  simp only [charMatches, Bool.or_eq_true, Bool.and_eq_true, beq_iff_eq,
    decide_eq_true_eq] at h
  rcases h with h | ⟨⟨h1, h2⟩, h3⟩
  · exact h.symm
  · exfalso
    have h4 : Char.toNat '<' = 60 := rfl
    rw [h4] at h3
    omega

theorem charMatches_gt {c : Char} (h : charMatches '>' c = true) :
    c = '>' := by
  simp only [charMatches, Bool.or_eq_true, Bool.and_eq_true, beq_iff_eq,
    decide_eq_true_eq] at h
  rcases h with h | ⟨⟨h1, h2⟩, h3⟩
  · exact h.symm
  · exfalso
    have h4 : Char.toNat '>' = 62 := rfl
    rw [h4] at h3
    omega

theorem doctype_head {d : List Char} (hd : CiExact doctypePat d) :
    ∃ d2, d = '<' :: d2 := by
  obtain ⟨hlen, hm⟩ := hd
  cases d with
  | nil => simp [doctypePat] at hlen
  | cons c d2 =>
    simp only [doctypePat, ciMatchList, Bool.and_eq_true] at hm
    exact ⟨d2, by rw [charMatches_lt hm.1]⟩

theorem ciExact_last (pat : List Char) :
    ∀ u p, pat.getLast? = some p → CiExact pat u →
      ∃ f c, u = f ++ [c] ∧ charMatches p c = true := by
  induction pat with
  | nil => intro u p h _; simp at h
  | cons q ps ih =>
    intro u p h hu
    obtain ⟨hlen, hm⟩ := hu
    cases u with
    | nil => simp at hlen
    | cons c cs =>
      simp only [ciMatchList, Bool.and_eq_true] at hm
      cases ps with
      | nil =>
        have hcs : cs = [] := by
          have hlen0 : cs.length = 0 := by simpa using hlen
          exact List.length_eq_zero.mp hlen0
        subst hcs
        have hqp : q = p := by simpa using h
        subst hqp
        exact ⟨[], c, rfl, hm.1⟩
      | cons q2 ps2 =>
        have hlast : (q2 :: ps2).getLast? = some p := by
          rw [← h]
          rfl
        obtain ⟨f, c2, hu2, hc2⟩ := ih cs p hlast ⟨by simpa using hlen, hm.2⟩
        exact ⟨c :: f, c2, by rw [hu2]; rfl, hc2⟩

theorem close_last {e : List Char} (he : CiExact closeHtmlPat e) :
    ∃ f, e = f ++ ['>'] := by
  obtain ⟨f, c, hu, hc⟩ := ciExact_last closeHtmlPat e '>' rfl he
  exact ⟨f, by rw [hu, charMatches_gt hc]⟩

/-- C9: the result of extractCode never has leading or trailing
whitespace: trimming it is the identity, under all three strategies. -/
theorem extractCode_result_trimmed (text : List Char) :
    jsTrim (extractCode text) = extractCode text := by
  unfold extractCode
  cases hfs : fenceScan text with
  | some i => exact jsTrim_idem i
  | none =>
    cases hhs : htmlScan text with
    | none => exact jsTrim_idem text
    | some l =>
      show jsTrim l = l
      obtain ⟨_, d, body, e, hd, he, hb, hl⟩ := htmlScan_sound text l hhs
      obtain ⟨d2, hd2⟩ := doctype_head hd
      obtain ⟨f, hf⟩ := close_last he
      have hshape : l = '<' :: ((d2 ++ body ++ f) ++ ['>']) := by
        rw [hl, hd2, hf]
        simp [List.append_assoc]
      rw [hshape]
      exact jsTrim_eq_of_ends '<' '>' (d2 ++ body ++ f) (by decide) (by decide)
